import Mathlib

/-!
Verification development for the scraping-checks-scheduler repository
(`src/index.js`).  The JavaScript source is shallowly embedded below:
pure helpers become Lean functions, the sitemap work-queue loop becomes a
fuel-indexed state function over an explicit network oracle, and JS values
become the inductive type `JVal`.  Platform primitives that the source
merely calls (WHATWG `new URL`, `Number(...)`, `String(...)`,
`JSON.stringify`, `Array.prototype.sort`, regex helpers) are modelled by
executable Lean functions faithful to their standard behaviour on the
inputs the program feeds them.  All definitions are structurally
recursive, so concrete runs evaluate inside the kernel.
-/

namespace Scrape

/-! ## Generic list/string helpers -/

/-- Boolean test: `pat` occurs as a contiguous run inside `cs`.
Models JavaScript `String.prototype.includes`. -/
def containsSeq : List Char → List Char → Bool
  | pat, [] => pat.isEmpty
  | pat, c :: rest => pat.isPrefixOf (c :: rest) || containsSeq pat rest

/-- Accumulator worker for `chunksP`: `cur` holds the (reversed) run of
kept characters currently being read. -/
def chunksAux (p : Char → Bool) : List Char → List Char → List (List Char)
  | [], cur => if cur = [] then [] else [cur.reverse]
  | c :: rest, cur =>
    if p c then chunksAux p rest (c :: cur)
    else if cur = [] then chunksAux p rest []
    else cur.reverse :: chunksAux p rest []

/-- Maximal runs of characters satisfying `p`, in order; the separating
characters are dropped.  Used to model `split(/\s+/).filter(Boolean)` and
the run-collapsing regex replacements of the source. -/
def chunksP (p : Char → Bool) (cs : List Char) : List (List Char) :=
  chunksAux p cs []

/-- Glue chunks back together with a single separator character. -/
def glue (sep : Char) : List (List Char) → List Char
  | [] => []
  | [w] => w
  | w :: ws => w ++ sep :: glue sep ws

/-- Model of `s.replace(/\s+/g, " ").trim()` from `normalizeValue`:
whitespace runs collapse to one space and the ends are trimmed, which is
exactly the whitespace-separated words re-joined by single spaces. -/
def collapseWs (cs : List Char) : List Char :=
  glue ' ' (chunksP (fun c => !c.isWhitespace) cs)

theorem chunksAux_all_p (p : Char → Bool) :
    ∀ cs cur, (∀ c ∈ cur, p c = true) →
      ∀ w ∈ chunksAux p cs cur, w ≠ [] ∧ ∀ c ∈ w, p c = true := by
  intro cs
  induction cs with
  | nil =>
    intro cur hcur w hw
    by_cases hc : cur = []
    · simp [chunksAux, hc] at hw
    · simp only [chunksAux, if_neg hc, List.mem_singleton] at hw
      subst hw
      refine ⟨by simpa using hc, ?_⟩
      intro c hc'
      exact hcur c (List.mem_reverse.mp hc')
  | cons a rest ih =>
    intro cur hcur w hw
    by_cases hpa : p a = true
    · rw [chunksAux, if_pos hpa] at hw
      refine ih (a :: cur) ?_ w hw
      intro c hc
      rcases List.mem_cons.mp hc with h | h
      · subst h; exact hpa
      · exact hcur c h
    · rw [chunksAux, if_neg hpa] at hw
      by_cases hc : cur = []
      · rw [if_pos hc] at hw
        exact ih [] (by simp) w hw
      · rw [if_neg hc] at hw
        rcases List.mem_cons.mp hw with h | h
        · subst h
          refine ⟨by simpa using hc, ?_⟩
          intro c hc'
          exact hcur c (List.mem_reverse.mp hc')
        · exact ih [] (by simp) w h

theorem chunksP_all_p (p : Char → Bool) (cs : List Char) :
    ∀ w ∈ chunksP p cs, w ≠ [] ∧ ∀ c ∈ w, p c = true :=
  chunksAux_all_p p cs [] (by simp)

theorem chunksAux_append_run (p : Char → Bool) :
    ∀ w, (∀ c ∈ w, p c = true) → ∀ rest cur,
      chunksAux p (w ++ rest) cur = chunksAux p rest (w.reverse ++ cur) := by
  intro w
  induction w with
  | nil => intro _ rest cur; simp
  | cons a w ih =>
    intro hall rest cur
    have hpa : p a = true := hall a (by simp)
    have hw : ∀ c ∈ w, p c = true := fun c hc => hall c (by simp [hc])
    rw [List.cons_append, chunksAux, if_pos hpa, ih hw rest (a :: cur)]
    simp

/-- Splitting a glued word list recovers it, provided every word is a
nonempty run of `p`-characters and the separator fails `p`. -/
theorem chunksP_glue (p : Char → Bool) (sep : Char) (hsep : p sep = false) :
    ∀ ws : List (List Char),
      (∀ w ∈ ws, w ≠ [] ∧ ∀ c ∈ w, p c = true) →
      chunksP p (glue sep ws) = ws := by
  intro ws
  induction ws with
  | nil => intro _; rfl
  | cons w ws ih =>
    intro h
    obtain ⟨hne, hall⟩ := h w (by simp)
    have hwrev : w.reverse ≠ [] := by simpa using hne
    cases ws with
    | nil =>
      show chunksAux p (glue sep [w]) [] = [w]
      have : glue sep [w] = w ++ [] := by simp [glue]
      rw [this, chunksAux_append_run p w hall [] []]
      simp [chunksAux, hwrev]
    | cons w2 ws2 =>
      show chunksAux p (glue sep (w :: w2 :: ws2)) [] = w :: w2 :: ws2
      have hglue : glue sep (w :: w2 :: ws2) = w ++ sep :: glue sep (w2 :: ws2) := rfl
      rw [hglue, chunksAux_append_run p w hall _ []]
      rw [chunksAux, if_neg (by simp [hsep])]
      simp only [List.append_nil, if_neg hwrev, List.reverse_reverse]
      have hrest : ∀ v ∈ w2 :: ws2, v ≠ [] ∧ ∀ c ∈ v, p c = true := by
        intro v hv; exact h v (by simp [hv])
      rw [show chunksAux p (glue sep (w2 :: ws2)) [] = chunksP p (glue sep (w2 :: ws2)) from rfl,
        ih hrest]

theorem collapseWs_idem (cs : List Char) :
    collapseWs (collapseWs cs) = collapseWs cs := by
  unfold collapseWs
  rw [chunksP_glue (fun c => !c.isWhitespace) ' ' (by simp)
    (chunksP (fun c => !c.isWhitespace) cs)
    (chunksP_all_p (fun c => !c.isWhitespace) cs)]

/-! ## A lexicographic comparator on character lists

Models the UTF-16 code-unit comparison used by JavaScript string
comparison (`<`, and the default `Array.prototype.sort` comparator). -/

def lexLe : List Char → List Char → Bool
  | [], _ => true
  | _ :: _, [] => false
  | a :: as, b :: bs =>
    if a.toNat < b.toNat then true
    else if b.toNat < a.toNat then false
    else lexLe as bs

theorem lexLe_total : ∀ a b, lexLe a b = true ∨ lexLe b a = true := by
  intro a
  induction a with
  | nil => intro b; left; rfl
  | cons x xs ih =>
    intro b
    cases b with
    | nil => right; rfl
    | cons y ys =>
      by_cases h1 : x.toNat < y.toNat
      · left; simp [lexLe, h1]
      · by_cases h2 : y.toNat < x.toNat
        · right; simp [lexLe, h2]
        · rcases ih ys with h | h
          · left; simp [lexLe, h1, h2, h]
          · right; simp [lexLe, h1, h2, h]

theorem lexLe_trans :
    ∀ a b c, lexLe a b = true → lexLe b c = true → lexLe a c = true := by
  intro a
  induction a with
  | nil => intro b c _ _; rfl
  | cons x xs ih =>
    intro b c hab hbc
    cases b with
    | nil => simp [lexLe] at hab
    | cons y ys =>
      cases c with
      | nil => simp [lexLe] at hbc
      | cons z zs =>
        rw [lexLe] at hab hbc ⊢
        by_cases hxy : x.toNat < y.toNat
        · by_cases hyz : y.toNat < z.toNat
          · have : x.toNat < z.toNat := Nat.lt_trans hxy hyz
            simp [this]
          · by_cases hzy : z.toNat < y.toNat
            · simp [hyz, hzy] at hbc
            · have hyz' : y.toNat = z.toNat := Nat.le_antisymm (Nat.le_of_not_lt hzy) (Nat.le_of_not_lt hyz)
              have : x.toNat < z.toNat := hyz' ▸ hxy
              simp [this]
        · by_cases hyx : y.toNat < x.toNat
          · simp [hxy, hyx] at hab
          · have hxy' : x.toNat = y.toNat := Nat.le_antisymm (Nat.le_of_not_lt hyx) (Nat.le_of_not_lt hxy)
            simp only [if_neg hxy, if_neg hyx] at hab
            by_cases hyz : y.toNat < z.toNat
            · have : x.toNat < z.toNat := hxy' ▸ hyz
              simp [this]
            · by_cases hzy : z.toNat < y.toNat
              · simp [hyz, hzy] at hbc
              · simp only [if_neg hyz, if_neg hzy] at hbc
                have hxz : ¬ x.toNat < z.toNat := by omega
                have hzx : ¬ z.toNat < x.toNat := by omega
                simp only [if_neg hxz, if_neg hzx]
                exact ih ys zs hab hbc

/-- String ordering used to model JS string comparison and default sort. -/
def strLe (a b : String) : Prop := lexLe a.data b.data = true

instance : DecidableRel strLe := fun a b => by
  unfold strLe; infer_instance

instance : IsTotal String strLe :=
  ⟨fun a b => lexLe_total a.data b.data⟩

instance : IsTrans String strLe :=
  ⟨fun a b c => lexLe_trans a.data b.data c.data⟩

end Scrape

namespace Scrape

/-! ## JavaScript values

`JVal` models the JSON-like values the checker passes around: null,
booleans, numbers (modelled as exact rationals; the program only ever
parses plain decimal literals), strings, arrays and objects.  Objects are
association lists; JavaScript objects have distinct keys. -/

inductive JVal where
  | jnull
  | jbool (b : Bool)
  | jnum (q : ℚ)
  | jstr (s : String)
  | jarr (xs : List JVal)
  | jobj (fs : List (String × JVal))

/-- Digit run to a natural number (helper for the `Number(...)` model). -/
def natOfDigits (ds : List Char) : Nat :=
  ds.foldl (fun n c => 10 * n + (c.toNat - 48)) 0

/-- Model of JavaScript `Number(s)` restricted to the character set the
source can feed it (digits, `.`, `-`; commas are removed before the
call): an optional leading minus, then digits with at most one decimal
point and at least one digit; anything else is NaN (`none`). -/
def parseNum (cs : List Char) : Option ℚ :=
  let neg : Bool := match cs with | '-' :: _ => true | _ => false
  let body : List Char := match cs with | '-' :: rest => rest | _ => cs
  if body.all (fun c => c.isDigit || c == '.') then
    let ip := body.takeWhile (fun c => c != '.')
    match body.dropWhile (fun c => c != '.') with
    | [] =>
      if ip.isEmpty then none
      else some (if neg then -(natOfDigits ip : ℚ) else (natOfDigits ip : ℚ))
    | _ :: frac =>
      if frac.all Char.isDigit && !(ip.isEmpty && frac.isEmpty) then
        let mag : ℚ := (natOfDigits ip : ℚ) + (natOfDigits frac : ℚ) / ((10 : ℚ) ^ frac.length)
        some (if neg then -mag else mag)
      else none
  else none

mutual
/-- Model of JavaScript `String(v)` (used by the default
`Array.prototype.sort` comparator): arrays join their elements with
commas (null becoming empty), plain objects print as
`[object Object]`. -/
def jsToString : JVal → String
  | .jnull => "null"
  | .jbool true => "true"
  | .jbool false => "false"
  | .jnum q => toString q
  | .jstr s => s
  | .jarr xs => ⟨glue ',' (jsArrElems xs)⟩
  | .jobj _ => "[object Object]"
def jsArrElems : List JVal → List (List Char)
  | [] => []
  | .jnull :: xs => [] :: jsArrElems xs
  | x :: xs => (jsToString x).data :: jsArrElems xs
end

/-- Comparator of the default `Array.prototype.sort`: order by the
stringified form. -/
def jsLe (a b : JVal) : Prop := lexLe (jsToString a).data (jsToString b).data = true

instance : DecidableRel jsLe := fun a b => by
  unfold jsLe; infer_instance

instance : IsTotal JVal jsLe :=
  ⟨fun a b => lexLe_total (jsToString a).data (jsToString b).data⟩

instance : IsTrans JVal jsLe :=
  ⟨fun a b c => lexLe_trans (jsToString a).data (jsToString b).data (jsToString c).data⟩

/-- Field comparison by key, modelling `Object.keys(v).sort()`. -/
def fieldLe (a b : String × JVal) : Prop := strLe a.1 b.1

instance : DecidableRel fieldLe := fun a b => by
  unfold fieldLe; infer_instance

instance : IsTotal (String × JVal) fieldLe :=
  ⟨fun a b => lexLe_total a.1.data b.1.data⟩

instance : IsTrans (String × JVal) fieldLe :=
  ⟨fun a b c => lexLe_trans a.1.data b.1.data c.1.data⟩

mutual
/-- Embedding of `normalizeValue` (src/index.js lines 175-192).
Strings: whitespace-collapsed and trimmed; if the residue of
digits/comma/period/minus still holds a digit and parses as a number
(commas removed), that number is returned.  Arrays: elements normalized,
then sorted with the default (stringified, stable) comparator.  Objects:
values normalized and fields ordered by sorted key — since JavaScript
object keys are distinct, iterating `Object.keys(v).sort()` and copying
`normalizeValue(v[k])` is exactly a stable sort by key of the normalized
field list.  Everything else passes through unchanged. -/
def normalizeValue : JVal → JVal
  | .jstr s =>
    let t := collapseWs s.data
    let num := t.filter (fun c => c.isDigit || c == '.' || c == ',' || c == '-')
    if num.any Char.isDigit then
      match parseNum (num.filter (fun c => c != ',')) with
      | some n => .jnum n
      | none => .jstr ⟨t⟩
    else .jstr ⟨t⟩
  | .jarr xs => .jarr (List.insertionSort jsLe (normalizeList xs))
  | .jobj fs => .jobj (List.insertionSort fieldLe (normalizeFields fs))
  | v => v
def normalizeList : List JVal → List JVal
  | [] => []
  | x :: xs => normalizeValue x :: normalizeList xs
def normalizeFields : List (String × JVal) → List (String × JVal)
  | [] => []
  | (k, v) :: fs => (k, normalizeValue v) :: normalizeFields fs
end

mutual
/-- Model of `JSON.stringify` (string escaping is not modelled; the
claims only need a deterministic serialized form). -/
def jsonStringify : JVal → String
  | .jnull => "null"
  | .jbool true => "true"
  | .jbool false => "false"
  | .jnum q => toString q
  | .jstr s => "\"" ++ s ++ "\""
  | .jarr xs => "[" ++ (⟨glue ',' (jsonList xs)⟩ : String) ++ "]"
  | .jobj fs => "\x7b" ++ (⟨glue ',' (jsonFields fs)⟩ : String) ++ "\x7d"
def jsonList : List JVal → List (List Char)
  | [] => []
  | x :: xs => (jsonStringify x).data :: jsonList xs
def jsonFields : List (String × JVal) → List (List Char)
  | [] => []
  | (k, v) :: fs => ("\"" ++ k ++ "\":" ++ jsonStringify v).data :: jsonFields fs
end

/-- The `?? {}` coalescing in `simpleDiff`: a null normalized input is
replaced by the empty object. -/
def nullCoalesce : JVal → JVal
  | .jnull => .jobj []
  | v => v

/-- All-digit string to an index (model of JS array/string indexing for
`Object.keys`-style access). -/
def parseIdx (s : String) : Option Nat :=
  if s.data ≠ [] ∧ s.data.all Char.isDigit then some (natOfDigits s.data) else none

/-- Model of `Object.keys`: field names for objects, index strings for
arrays and strings, nothing for primitives. -/
def keysOf : JVal → List String
  | .jobj fs => fs.map Prod.fst
  | .jarr xs => (List.range xs.length).map (fun i => toString i)
  | .jstr s => (List.range s.data.length).map (fun i => toString i)
  | _ => []

/-- Model of JS property access `v[k]` for the keys `keysOf` can
produce. -/
def getKey : JVal → String → Option JVal
  | .jobj fs, k => (fs.find? (fun kv => kv.1 == k)).map Prod.snd
  | .jarr xs, k => (parseIdx k).bind (fun i => xs[i]?)
  | .jstr s, k => (parseIdx k).bind (fun i => (s.data[i]?).map (fun c => .jstr ⟨[c]⟩))
  | _, _ => none

/-- First-occurrence deduplication, modelling iteration order of a JS
`Set` built from a list. -/
def dedupAux : List String → List String → List String
  | _, [] => []
  | seen, x :: xs => if x ∈ seen then dedupAux seen xs else x :: dedupAux (x :: seen) xs

def dedupFirst (l : List String) : List String := dedupAux [] l

/-- Embedding of `simpleDiff` (src/index.js lines 193-203): normalize
both sides (null coalescing to the empty object), take the set of
top-level keys of either side, drop ignored keys, and report a key when
the JSON-serialized normalized values differ. -/
def simpleDiff (a b : JVal) (ignore : List String) : List String :=
  let A := nullCoalesce (normalizeValue a)
  let B := nullCoalesce (normalizeValue b)
  let keys := dedupFirst (keysOf A ++ keysOf B)
  keys.filter (fun k =>
    !(ignore.contains k) &&
      !((getKey A k).map jsonStringify == (getKey B k).map jsonStringify))

/-- Embedding of `diffSets` (src/index.js lines 489-495): build the two
sets, list elements of one absent from the other, and sort
lexicographically (`Array.prototype.sort` default on strings). -/
def diffSets (prev next : List String) : List String × List String :=
  (List.insertionSort strLe ((dedupFirst next).filter (fun x => !(prev.contains x))),
   List.insertionSort strLe ((dedupFirst prev).filter (fun x => !(next.contains x))))

end Scrape

namespace Scrape

/-! ## URL resolution model

The source calls the WHATWG `new URL(child, base).href`.  The model below
covers the forms the program feeds it: absolute URLs (kept as-is),
root-relative paths (joined to the base's origin) and path-relative
references (joined to the base's directory).  Dot-segment and
query/fragment normalization are not modelled. -/

/-- Split `cs` at the first occurrence of `pat`, returning the parts
before and after it. -/
def splitAtSub (pat : List Char) : List Char → Option (List Char × List Char)
  | [] => if pat.isEmpty then some ([], []) else none
  | c :: rest =>
    if pat.isPrefixOf (c :: rest) then some ([], (c :: rest).drop pat.length)
    else match splitAtSub pat rest with
      | some (a, b) => some (c :: a, b)
      | none => none

def schemeSplit (u : String) : Option (List Char × List Char) :=
  splitAtSub "://".data u.data

/-- `scheme://host` of a URL (what `u.protocol + "//" + u.host` builds). -/
def originOf (u : String) : String :=
  match schemeSplit u with
  | some (sch, rest) => ⟨sch ++ "://".data ++ rest.takeWhile (fun c => c != '/')⟩
  | none => u

/-- The robots location probed by `discoverSitemapsFromRobots`
(src/index.js lines 427-434): `protocol//host/robots.txt`. -/
def robotsUrlOf (u : String) : String := originOf u ++ "/robots.txt"

/-- The base URL up to and including the final path slash. -/
def dirOf (u : String) : String :=
  match schemeSplit u with
  | some (sch, rest) =>
    let host := rest.takeWhile (fun c => c != '/')
    let path := rest.dropWhile (fun c => c != '/')
    if path = [] then u ++ "/"
    else ⟨sch ++ "://".data ++ host ++ ((path.reverse.dropWhile (fun c => c != '/')).reverse)⟩
  | none => u

/-- Model of `new URL(child, base).href`. -/
def urlResolve (child : String) (base : String) : String :=
  if (schemeSplit child).isSome then child
  else match child.data with
    | '/' :: _ => originOf base ++ child
    | _ => dirOf base ++ child

/-! ## Sitemap resolution (src/index.js lines 427-481)

The network and the regex layer (`fetchTextMaybeGzip` composed with
`extractLocsFromXml`, and the `Sitemap:` directive scan of robots.txt)
are an oracle `Net`; the traversal logic — work queue, visited set,
relative-URL resolution, index expansion, limits, robots fallback — is
the embedded code.  Every fetch performed is recorded in a trace. -/

/-- Parsed form of one fetched sitemap document: the structural
`<sitemapindex>` marker and the `<loc>` texts in document order. -/
structure SitemapDoc where
  isIndex : Bool
  locs : List String
deriving DecidableEq

/-- Network oracle: `xmlDoc u` is `extractLocsFromXml(await
fetchTextMaybeGzip(u))` (an `Except.error` models a thrown fetch error),
`robotsTxt u` is the list of `Sitemap:` directives of the robots file at
`u` (error models a failed robots fetch). -/
structure Net where
  xmlDoc : String → Except String SitemapDoc
  robotsTxt : String → Except String (List String)

/-- One network fetch: a queued sitemap URL, a child sitemap during index
expansion, or a robots.txt probe. -/
inductive FetchEv where
  | xml (u : String)
  | child (u : String)
  | robots (u : String)
deriving DecidableEq

/-- Embedding of `discoverSitemapsFromRobots`: probe
`{scheme}://{host}/robots.txt` of the start URL and return every
`Sitemap:` directive; a failed probe yields the empty list. -/
def discoverSitemapsFromRobots (net : Net) (startUrl : String) :
    List String × List FetchEv :=
  let ru := robotsUrlOf startUrl
  match net.robotsTxt ru with
  | .ok sitemaps => (sitemaps, [.robots ru])
  | .error _ => ([], [.robots ru])

/-- Index expansion (the `for (const sm of child)` loop): fetch each
child in order, append the leaf locations of children that are urlsets
(resolved against the *index's* URL `base`), skip children that fail or
are themselves indices, and break as soon as the accumulator reaches a
nonzero `limit`. -/
def expandChildren (net : Net) (base : String) (limit : Nat) :
    List String → List String → List String × List FetchEv
  | [], all => (all, [])
  | sm :: rest, all =>
    let fetched :=
      match net.xmlDoc sm with
      | .ok sub =>
        if !sub.isIndex then all ++ sub.locs.map (fun l => urlResolve l base) else all
      | .error _ => all
    if limit ≠ 0 ∧ limit ≤ fetched.length then (fetched, [.child sm])
    else
      let next := expandChildren net base limit rest fetched
      (next.1, .child sm :: next.2)

structure SmResult where
  source : String
  urls : List String
deriving DecidableEq

/-- The work-queue loop of `fetchSitemapUrls`, with explicit state:
remaining queue, visited list (`tried`; JS uses a `Set`, and the list
only ever receives fresh elements so its length is the set's size), the
first recorded error, and the fetch trace.  `none` is the out-of-fuel
marker; every terminating JS run is reproduced by a sufficiently large
fuel.  The robots fallback guard is `queue.length === 0 && tried.size
=== 1`, checked after adding the current URL: i.e. the rest of the queue
is empty and no URL was tried before the current one. -/
def smLoop (net : Net) (origUrl : String) (indexLimit limit : Nat) :
    Nat → List String → List String → Option String → List FetchEv →
    Option (Except String SmResult × List FetchEv)
  | 0, _, _, _, _ => none
  | _ + 1, [], _, firstErr, tr =>
    some (.error ("Sitemap fetch failed: " ++ firstErr.getD "Unknown sitemap error"), tr)
  | fuel + 1, cur :: rest, tried, firstErr, tr =>
    if cur ∈ tried then smLoop net origUrl indexLimit limit fuel rest tried firstErr tr
    else
      match net.xmlDoc cur with
      | .ok doc =>
        if doc.isIndex then
          let children := (doc.locs.take indexLimit).map (fun l => urlResolve l cur)
          let ex := expandChildren net cur limit children []
          some (.ok ⟨cur, if limit ≠ 0 then ex.1.take limit else ex.1⟩, tr ++ .xml cur :: ex.2)
        else
          some (.ok ⟨cur, (if limit ≠ 0 then doc.locs.take limit else doc.locs).map
              (fun l => urlResolve l cur)⟩, tr ++ [.xml cur])
      | .error e =>
        if rest = [] ∧ tried = [] then
          let disc := discoverSitemapsFromRobots net origUrl
          smLoop net origUrl indexLimit limit fuel disc.1 (cur :: tried)
            (some (firstErr.getD e)) (tr ++ .xml cur :: disc.2)
        else
          smLoop net origUrl indexLimit limit fuel rest (cur :: tried)
            (some (firstErr.getD e)) (tr ++ [.xml cur])

/-- Embedding of `fetchSitemapUrls(url, { indexLimit, limit })`
(src/index.js lines 440-481); `limit = 0` models an absent (falsy)
limit. -/
def fetchSitemapUrls (net : Net) (url : String) (indexLimit limit fuel : Nat) :
    Option (Except String SmResult × List FetchEv) :=
  smLoop net url indexLimit limit fuel [url] [] none []

/-! ## Table matching (src/index.js lines 546-588) -/

/-- A parsed HTML table as produced by `parseTables` /
`scrapeTablesMatrix`: header cells and body rows of cell texts. -/
structure HtmlTable where
  headers : List String
  rows : List (List String)
deriving DecidableEq

/-- `s.trim()` on the character list (ASCII/Unicode whitespace ends). -/
def jsTrim (s : String) : String :=
  ⟨((s.data.dropWhile Char.isWhitespace).reverse.dropWhile Char.isWhitespace).reverse⟩

/-- `s.toUpperCase()` (ASCII case mapping). -/
def jsUpper (s : String) : String := ⟨s.data.map Char.toUpper⟩

/-- The header predicate of `pickTableWithColumn`: some header cell,
trimmed and uppercased, contains the requested column name. -/
def headerHasCol (want : String) (t : HtmlTable) : Bool :=
  t.headers.any (fun h => containsSeq (jsUpper want).data (jsUpper (jsTrim h)).data)

/-- Embedding of `pickTableWithColumn` (src/index.js lines 546-549): the
first table, in document order, whose headers contain the requested
column name (uppercased substring match).  No other property of the
candidates is consulted. -/
def pickTableWithColumn (tables : List HtmlTable) (desiredColUpper : String) :
    Option HtmlTable :=
  tables.find? (headerHasCol desiredColUpper)

/-- Lower-case ASCII letter or digit: the residue alphabet of the
`[^a-z0-9]+` normalization in `looseContains`. -/
def alnumLower (c : Char) : Bool :=
  c.isDigit || (97 ≤ c.toNat && c.toNat ≤ 122)

/-- Embedding of `looseContains` (src/index.js lines 353-358): lowercase
both strings, replace non-alphanumeric runs by spaces, split the needle
into tokens, and require every token to occur in the haystack. -/
def looseContains (hay needle : String) : Bool :=
  let H := glue ' ' (chunksP alnumLower (hay.data.map Char.toLower))
  let toks := chunksP alnumLower (needle.data.map Char.toLower)
  toks.all (fun t => containsSeq t H)

/-- Modelled from the spec (§4.5 Table Matcher): a table candidate as
the specification describes it, including the visibility flag the
DOM-free code never sees. -/
structure SpecCandidate where
  headers : List String
  rows : List (List String)
  visible : Bool
deriving DecidableEq

/-- Modelled from the spec (§4.5): the plausibility score — `+2` if
visible, `+min(10, rowCount)`, `+3` for a total-like header token, `+2`
for a grade-like header token, `+20` if some row's concatenated text
contains every token of the row-match phrase. -/
def specPlausibilityScore (rowMatch : String) (c : SpecCandidate) : Nat :=
  (if c.visible then 2 else 0) + min 10 c.rows.length +
    (if c.headers.any (fun h => looseContains h "total") then 3 else 0) +
    (if c.headers.any (fun h => looseContains h "grade") then 2 else 0) +
    (if c.rows.any (fun r => looseContains (String.intercalate " " r) rowMatch) then 20 else 0)

/-- Modelled from the spec (§4.5): select the highest-scoring candidate,
keeping first-encountered order on ties. -/
def specSelect (rowMatch : String) : List SpecCandidate → Option SpecCandidate
  | [] => none
  | c :: cs =>
    some (cs.foldl (fun best x =>
      if specPlausibilityScore rowMatch x > specPlausibilityScore rowMatch best then x
      else best) c)

end Scrape

namespace Scrape

/-! ## Concrete scenarios used by the claims -/

/-- Hidden 50-row table of the spec's Table-Matcher scenario (visibility
is not part of the parsed table data the code sees). -/
def tblHidden : HtmlTable :=
  ⟨["CARD", "GEM-MT 10"], List.replicate 50 ["Other Card", "100"]⟩

/-- Visible 5-row table containing the target row tokens. -/
def tblVisible : HtmlTable :=
  ⟨["CARD", "GEM-MT 10"],
   ["Charizard - Holo-1st Edition", "5000"] :: List.replicate 4 ["Filler", "1"]⟩

def candHidden : SpecCandidate := ⟨tblHidden.headers, tblHidden.rows, false⟩

def candVisible : SpecCandidate := ⟨tblVisible.headers, tblVisible.rows, true⟩

/-- Urlset listing the same location twice. -/
def netDup : Net :=
  ⟨fun u => if u = "https://e.com/s.xml"
      then .ok ⟨false, ["https://e.com/a", "https://e.com/a"]⟩
      else .error "HTTP 404",
   fun _ => .error "HTTP 404"⟩

/-- Sitemap index pointing back to itself. -/
def netSelf : Net :=
  ⟨fun u => if u = "https://e.com/s.xml"
      then .ok ⟨true, ["https://e.com/s.xml"]⟩
      else .error "HTTP 404",
   fun _ => .error "HTTP 404"⟩

/-- Index at `/a/idx.xml` with a relative child urlset at
`/a/sub/child.xml` whose leaf location is relative. -/
def netRel : Net :=
  ⟨fun u =>
      if u = "https://ex.com/a/idx.xml" then .ok ⟨true, ["sub/child.xml"]⟩
      else if u = "https://ex.com/a/sub/child.xml" then .ok ⟨false, ["page.html"]⟩
      else .error "HTTP 404",
   fun _ => .error "HTTP 404"⟩

/-- Root sitemap 404s; robots.txt lists an alternate sitemap whose
urlset holds a relative leaf. -/
def netAlt : Net :=
  ⟨fun u =>
      if u = "https://ex.com/b/alt.xml" then .ok ⟨false, ["leaf.html"]⟩
      else .error "HTTP 404",
   fun u => if u = "https://ex.com/robots.txt"
      then .ok ["https://ex.com/b/alt.xml"]
      else .error "HTTP 404"⟩

/-- First URL fetches fine but the document has no locations at all. -/
def netEmptyDoc : Net :=
  ⟨fun u => if u = "https://e.com/s.xml"
      then .ok ⟨false, []⟩
      else .error "HTTP 404",
   fun _ => .ok ["https://e.com/other.xml"]⟩

/-- Index with three child urlsets of 10 locations each. -/
def net9 : Net :=
  ⟨fun u =>
      if u = "https://e.com/idx.xml" then
        .ok ⟨true, ["https://e.com/c1.xml", "https://e.com/c2.xml", "https://e.com/c3.xml"]⟩
      else if u = "https://e.com/c1.xml" then
        .ok ⟨false, List.replicate 10 "https://e.com/p1"⟩
      else if u = "https://e.com/c2.xml" then
        .ok ⟨false, List.replicate 10 "https://e.com/p2"⟩
      else if u = "https://e.com/c3.xml" then
        .ok ⟨false, List.replicate 10 "https://e.com/p3"⟩
      else .error "HTTP 404",
   fun _ => .error "HTTP 404"⟩

/-- Index whose first child fails and whose second child works. -/
def netBad : Net :=
  ⟨fun u =>
      if u = "https://e.com/idx.xml" then
        .ok ⟨true, ["https://e.com/b1.xml", "https://e.com/b2.xml"]⟩
      else if u = "https://e.com/b2.xml" then
        .ok ⟨false, ["https://e.com/x"]⟩
      else .error "HTTP 500",
   fun _ => .error "HTTP 404"⟩

/-! ## Claim C1 — Table Matcher selection -/

/-- C1 counterexample: `pickTableWithColumn` does not score candidates at
all; on the spec's own scenario (a 50-row hidden table first, then a
5-row visible table containing the target tokens, both exposing the
requested grade column) the code selects the first — hidden, 50-row —
table, while the spec's plausibility scoring selects the visible 5-row
one (scores 10 vs 27). -/
theorem claim_C1_counterexample :
    pickTableWithColumn [tblHidden, tblVisible] "GEM-MT 10" = some tblHidden ∧
    tblHidden ≠ tblVisible ∧
    specSelect "Charizard - Holo-1st Edition" [candHidden, candVisible] = some candVisible ∧
    specPlausibilityScore "Charizard - Holo-1st Edition" candHidden = 10 ∧
    specPlausibilityScore "Charizard - Holo-1st Edition" candVisible = 27 ∧
    candVisible.headers = tblVisible.headers ∧ candVisible.rows = tblVisible.rows := by
  refine ⟨by decide, by decide, by decide, by decide, by decide, rfl, rfl⟩

/-- C1 (amended): the Table Matcher performs no plausibility scoring;
`pickTableWithColumn` selects the first table, in encounter order, whose
header contains the requested column name (uppercased substring match),
ignoring visibility, row count and row content. -/
theorem claim_C1_amended (pre post : List HtmlTable) (t : HtmlTable) (col : String)
    (h1 : ∀ t' ∈ pre, headerHasCol col t' = false)
    (h2 : headerHasCol col t = true) :
    pickTableWithColumn (pre ++ t :: post) col = some t := by
  unfold pickTableWithColumn
  induction pre with
  | nil => simp [List.find?_cons_of_pos, h2]
  | cons a pre ih =>
    have ha : headerHasCol col a = false := h1 a (by simp)
    rw [List.cons_append, List.find?_cons_of_neg _ (by simp [ha])]
    exact ih (fun t' ht' => h1 t' (by simp [ht']))

/-- Witness for C1 (amended): among a header-less table and the 50-row
table exposing the grade column, the 50-row one is selected. -/
theorem claim_C1_amended_witness :
    pickTableWithColumn [⟨["NAME"], []⟩, tblHidden] "GEM-MT 10" = some tblHidden :=
  claim_C1_amended [⟨["NAME"], []⟩] [] tblHidden "GEM-MT 10"
    (by intro t' ht'; simp at ht'; subst ht'; decide) (by decide)

/-! ## Claim C2 — relative location resolution -/

/-- C2 counterexample: a relative leaf found inside a child urlset during
index expansion is resolved against the *index's* URL, not the child
urlset's own URL: the run yields `https://ex.com/a/page.html`, while
resolution against the child at `https://ex.com/a/sub/child.xml` would
give `https://ex.com/a/sub/page.html`. -/
theorem claim_C2_counterexample :
    fetchSitemapUrls netRel "https://ex.com/a/idx.xml" 5 0 3 =
      some (.ok ⟨"https://ex.com/a/idx.xml", ["https://ex.com/a/page.html"]⟩,
        [.xml "https://ex.com/a/idx.xml", .child "https://ex.com/a/sub/child.xml"]) ∧
    urlResolve "page.html" "https://ex.com/a/sub/child.xml" = "https://ex.com/a/sub/page.html" ∧
    ("https://ex.com/a/page.html" : String) ≠ "https://ex.com/a/sub/page.html" :=
  ⟨rfl, by decide, by decide⟩

/-- C2 (amended): a relative location is resolved against the queue URL
currently being processed — for leaves of a directly fetched urlset that
is the document containing them (second run: a relative leaf of the
robots-discovered urlset resolves against that urlset's URL), but during
index expansion the leaves of a child urlset are resolved against the
index's URL, not the child's (first run). -/
theorem claim_C2_amended :
    fetchSitemapUrls netRel "https://ex.com/a/idx.xml" 5 0 3 =
      some (.ok ⟨"https://ex.com/a/idx.xml",
          [urlResolve "page.html" "https://ex.com/a/idx.xml"]⟩,
        [.xml "https://ex.com/a/idx.xml", .child "https://ex.com/a/sub/child.xml"]) ∧
    fetchSitemapUrls netAlt "https://ex.com/sitemap.xml" 5 0 3 =
      some (.ok ⟨"https://ex.com/b/alt.xml",
          [urlResolve "leaf.html" "https://ex.com/b/alt.xml"]⟩,
        [.xml "https://ex.com/sitemap.xml", .robots "https://ex.com/robots.txt",
         .xml "https://ex.com/b/alt.xml"]) :=
  ⟨rfl, rfl⟩

/-! ## Claim C6 — normalizing null -/

/-- C6 counterexample: `normalizeValue` maps null to null, not to the
empty mapping (`null` falls through every branch and is returned
unchanged). -/
theorem claim_C6_counterexample :
    normalizeValue .jnull = .jnull ∧ JVal.jnull ≠ JVal.jobj [] :=
  ⟨rfl, fun h => nomatch h⟩

/-- C6 (amended): `normalizeValue` returns null unchanged; it is the
diff engine's `?? {}` coalescing that turns a null normalized input into
the empty mapping. -/
theorem claim_C6_amended :
    normalizeValue .jnull = .jnull ∧
    nullCoalesce (normalizeValue .jnull) = .jobj [] :=
  ⟨rfl, rfl⟩

/-! ## Claim C8 — diff of a value with itself -/

/-- C8: for every value and every ignore list, diffing a value against
itself reports no changed field. -/
theorem claim_C8 (x : JVal) (ignore : List String) : simpleDiff x x ignore = [] := by
  unfold simpleDiff
  apply List.filter_eq_nil_iff.mpr
  intro k hk
  simp

/-! ## Claim C9 — limit stop and bad-child skip -/

/-- One step of index expansion never continues past a met limit: from
any state whose accumulator has already reached a nonzero limit, exactly
one more child is processed and the remaining children are never
fetched. -/
theorem expandChildren_stops_at_limit (net : Net) (base : String) (limit : Nat)
    (sm : String) (rest all : List String)
    (h0 : limit ≠ 0) (hle : limit ≤ all.length) :
    (expandChildren net base limit (sm :: rest) all).2 = [.child sm] := by
  have hf : limit ≤ (match net.xmlDoc sm with
      | .ok sub =>
        if !sub.isIndex then all ++ sub.locs.map (fun l => urlResolve l base) else all
      | .error _ => all).length := by
    split
    · split
      · simp only [List.length_append]
        omega
      · exact hle
    · exact hle
  simp only [expandChildren]
  rw [if_pos ⟨h0, hf⟩]

/-- C9: index expansion stops fetching children as soon as the
accumulated count reaches a nonzero limit (general break property, plus
the spec's scenario: three 10-location children and `limit = 15` yield
exactly 15 URLs with the third child never fetched); a failing child
sitemap is skipped, not fatal. -/
theorem claim_C9 :
    (∀ (net : Net) (base : String) (limit : Nat) (sm : String) (rest all : List String),
      limit ≠ 0 → limit ≤ all.length →
      (expandChildren net base limit (sm :: rest) all).2 = [.child sm]) ∧
    fetchSitemapUrls net9 "https://e.com/idx.xml" 5 15 3 =
      some (.ok ⟨"https://e.com/idx.xml",
          List.replicate 10 "https://e.com/p1" ++ List.replicate 5 "https://e.com/p2"⟩,
        [.xml "https://e.com/idx.xml", .child "https://e.com/c1.xml",
         .child "https://e.com/c2.xml"]) ∧
    (List.replicate 10 "https://e.com/p1" ++
      List.replicate 5 "https://e.com/p2" : List String).length = 15 ∧
    FetchEv.child "https://e.com/c3.xml" ∉
      [FetchEv.xml "https://e.com/idx.xml", FetchEv.child "https://e.com/c1.xml",
       FetchEv.child "https://e.com/c2.xml"] ∧
    fetchSitemapUrls netBad "https://e.com/idx.xml" 5 0 3 =
      some (.ok ⟨"https://e.com/idx.xml", ["https://e.com/x"]⟩,
        [.xml "https://e.com/idx.xml", .child "https://e.com/b1.xml",
         .child "https://e.com/b2.xml"]) :=
  ⟨expandChildren_stops_at_limit, rfl, by decide, by decide, rfl⟩

/-- Witness for C9: with the limit (5) already met by a 10-element
accumulator, only the next child appears in the expansion trace. -/
theorem claim_C9_witness :
    (expandChildren net9 "https://e.com/idx.xml" 5 ["https://e.com/c3.xml"]
      (List.replicate 10 "https://e.com/p1")).2 = [.child "https://e.com/c3.xml"] :=
  claim_C9.1 net9 "https://e.com/idx.xml" 5 "https://e.com/c3.xml" []
    (List.replicate 10 "https://e.com/p1") (by decide) (by decide)

end Scrape

namespace Scrape

/-! ## Trace bookkeeping for the sitemap claims -/

/-- Number of robots.txt probes in a trace. -/
def robotsCount (tr : List FetchEv) : Nat :=
  (tr.filter (fun e => match e with | .robots _ => true | _ => false)).length

/-- URLs fetched at queue level (the `fetchTextMaybeGzip(cur)` calls). -/
def queueFetchUrls (tr : List FetchEv) : List String :=
  tr.filterMap (fun e => match e with | .xml u => some u | _ => none)

/-- Every URL an HTTP request was made to (queue and child fetches). -/
def fetchedUrls (tr : List FetchEv) : List String :=
  tr.filterMap (fun e => match e with | .xml u => some u | .child u => some u | .robots _ => none)

theorem robotsCount_append (a b : List FetchEv) :
    robotsCount (a ++ b) = robotsCount a + robotsCount b := by
  simp [robotsCount]

theorem queueFetchUrls_append (a b : List FetchEv) :
    queueFetchUrls (a ++ b) = queueFetchUrls a ++ queueFetchUrls b := by
  simp [queueFetchUrls]

theorem expandChildren_robotsCount (net : Net) (base : String) (l : Nat) :
    ∀ cs all, robotsCount (expandChildren net base l cs all).2 = 0 := by
  intro cs
  induction cs with
  | nil => intro all; rfl
  | cons sm rest ih =>
    intro all
    rw [expandChildren]
    split
    · simp [robotsCount]
    · simp only [robotsCount, List.filter_cons]
      exact ih _

theorem expandChildren_queueFetchUrls (net : Net) (base : String) (l : Nat) :
    ∀ cs all, queueFetchUrls (expandChildren net base l cs all).2 = [] := by
  intro cs
  induction cs with
  | nil => intro all; rfl
  | cons sm rest ih =>
    intro all
    rw [expandChildren]
    split
    · simp [queueFetchUrls]
    · simp only [queueFetchUrls, List.filterMap_cons]
      exact ih _

theorem discover_trace (net : Net) (o : String) :
    (discoverSitemapsFromRobots net o).2 = [.robots (robotsUrlOf o)] := by
  unfold discoverSitemapsFromRobots
  cases h : net.robotsTxt (robotsUrlOf o) <;> simp [h]

/-! ## Claim C3 — dedup and cap -/

/-- C3 counterexample: a urlset listing the same location twice is
returned with the duplicate intact — the result is not deduplicated. -/
theorem claim_C3_counterexample :
    fetchSitemapUrls netDup "https://e.com/s.xml" 5 5 3 =
      some (.ok ⟨"https://e.com/s.xml", ["https://e.com/a", "https://e.com/a"]⟩,
        [.xml "https://e.com/s.xml"]) ∧
    ¬ (["https://e.com/a", "https://e.com/a"] : List String).Nodup :=
  ⟨rfl, by decide⟩

/-- Cap invariant of the work-queue loop: every successful result
respects a nonzero limit. -/
theorem smLoop_ok_le_limit (net : Net) (o : String) (il l : Nat) (hl : l ≠ 0) :
    ∀ fuel q tried fe tr res tr',
      smLoop net o il l fuel q tried fe tr = some (.ok res, tr') →
      res.urls.length ≤ l := by
  intro fuel
  induction fuel with
  | zero => intro q tried fe tr res tr' h; simp [smLoop] at h
  | succ fuel ih =>
    intro q tried fe tr res tr' h
    cases q with
    | nil =>
      rw [smLoop] at h
      simp at h
    | cons cur rest =>
      rw [smLoop] at h
      split at h
      · exact ih rest tried fe tr res tr' h
      · split at h
        · split at h
          · simp only [Option.some.injEq, Prod.mk.injEq, Except.ok.injEq] at h
            obtain ⟨h1, -⟩ := h
            subst h1
            simp only [if_pos hl]
            simp [Nat.min_le_left]
          · simp only [Option.some.injEq, Prod.mk.injEq, Except.ok.injEq] at h
            obtain ⟨h1, -⟩ := h
            subst h1
            simp only [if_pos hl]
            simp [Nat.min_le_left]
        · split at h
          · exact ih _ _ _ _ res tr' h
          · exact ih _ _ _ _ res tr' h

/-- C3 (amended): with a configured (nonzero) limit every successful
resolution returns at most `limit` leaf URLs; the sequence is not
deduplicated (see the counterexample). -/
theorem claim_C3_amended (net : Net) (url : String) (il l fuel : Nat)
    (res : SmResult) (tr : List FetchEv) (hl : l ≠ 0)
    (h : fetchSitemapUrls net url il l fuel = some (.ok res, tr)) :
    res.urls.length ≤ l :=
  smLoop_ok_le_limit net url il l hl fuel [url] [] none [] res tr h

/-- Witness for C3 (amended) at the duplicate-urlset run. -/
theorem claim_C3_amended_witness :
    (5 : Nat) ≠ 0 ∧ (["https://e.com/a", "https://e.com/a"] : List String).length ≤ 5 :=
  ⟨by decide,
   claim_C3_amended netDup "https://e.com/s.xml" 5 5 3
     ⟨"https://e.com/s.xml", ["https://e.com/a", "https://e.com/a"]⟩
     [.xml "https://e.com/s.xml"] (by decide) rfl⟩

end Scrape

namespace Scrape

/-! ## Claim C4 — robots fallback -/

/-- C4 counterexample: a successfully fetched first document with no
recognizable locations does *not* trigger the robots fallback — the code
returns an empty urlset result without probing robots.txt (the fallback
sits in the error handler and fires only when the fetch throws). -/
theorem claim_C4_counterexample :
    fetchSitemapUrls netEmptyDoc "https://e.com/s.xml" 5 0 3 =
      some (.ok ⟨"https://e.com/s.xml", []⟩, [.xml "https://e.com/s.xml"]) ∧
    (∀ u, FetchEv.robots u ∉ [FetchEv.xml "https://e.com/s.xml"]) := by
  refine ⟨rfl, ?_⟩
  intro u h
  simp at h

/-- Fallback invariant of the work-queue loop: the robots probe count of
the trace never exceeds one.  The bound on the incoming trace is `0`
while nothing has been tried (the only state from which the fallback can
still fire) and `1` afterwards. -/
theorem smLoop_robots_le (net : Net) (o : String) (il l : Nat) :
    ∀ fuel q tried fe tr res tr',
      smLoop net o il l fuel q tried fe tr = some (res, tr') →
      robotsCount tr ≤ (if tried = [] then 0 else 1) →
      robotsCount tr' ≤ 1 := by
  intro fuel
  induction fuel with
  | zero => intro q tried fe tr res tr' h _; simp [smLoop] at h
  | succ fuel ih =>
    intro q tried fe tr res tr' h hb
    have hb1 : robotsCount tr ≤ 1 := by
      refine le_trans hb ?_
      split <;> omega
    cases q with
    | nil =>
      rw [smLoop] at h
      simp only [Option.some.injEq, Prod.mk.injEq] at h
      obtain ⟨-, h2⟩ := h
      subst h2
      exact hb1
    | cons cur rest =>
      rw [smLoop] at h
      split at h
      · exact ih rest tried fe tr res tr' h hb
      · rename_i hmem
        split at h
        · rename_i doc hdoc
          split at h
          · simp only [Option.some.injEq, Prod.mk.injEq] at h
            obtain ⟨-, h2⟩ := h
            subst h2
            rw [robotsCount_append]
            have hc : robotsCount (FetchEv.xml cur :: (expandChildren net cur l
                ((doc.locs.take il).map (fun x => urlResolve x cur)) []).2) = 0 := by
              simp only [robotsCount, List.filter_cons]
              simpa [robotsCount] using expandChildren_robotsCount net cur l
                ((doc.locs.take il).map (fun x => urlResolve x cur)) []
            omega
          · simp only [Option.some.injEq, Prod.mk.injEq] at h
            obtain ⟨-, h2⟩ := h
            subst h2
            rw [robotsCount_append]
            have hc : robotsCount [FetchEv.xml cur] = 0 := by simp [robotsCount]
            omega
        · rename_i e he
          split at h
          · rename_i hre
            refine ih _ _ _ _ res tr' h ?_
            have htr : tried = [] := hre.2
            have : robotsCount (tr ++ FetchEv.xml cur :: (discoverSitemapsFromRobots net o).2) =
                robotsCount tr + 1 := by
              rw [robotsCount_append, discover_trace]
              simp [robotsCount]
            rw [this]
            have h0 : robotsCount tr ≤ 0 := by simpa [htr] using hb
            simp only [if_neg (by simp : ¬(cur :: tried = []))]
            omega
          · refine ih _ _ _ _ res tr' h ?_
            have : robotsCount (tr ++ [FetchEv.xml cur]) = robotsCount tr := by
              rw [robotsCount_append]; simp [robotsCount]
            rw [this]
            simp only [if_neg (by simp : ¬(cur :: tried = []))]
            exact hb1

/-- C4 (amended): the robots fallback fires only when fetching the very
first URL fails (a successfully fetched empty document returns an empty
result instead — see the counterexample); it fires at most once per
resolution run, and when the root sitemap 404s while robots.txt lists an
alternate sitemap, the resolver returns the alternate's leaf URLs with
no error. -/
theorem claim_C4_amended :
    (∀ (net : Net) (url : String) (il l fuel : Nat) (res : Except String SmResult)
        (tr : List FetchEv),
      fetchSitemapUrls net url il l fuel = some (res, tr) → robotsCount tr ≤ 1) ∧
    fetchSitemapUrls netAlt "https://ex.com/sitemap.xml" 5 0 3 =
      some (.ok ⟨"https://ex.com/b/alt.xml", ["https://ex.com/b/leaf.html"]⟩,
        [.xml "https://ex.com/sitemap.xml", .robots "https://ex.com/robots.txt",
         .xml "https://ex.com/b/alt.xml"]) := by
  constructor
  · intro net url il l fuel res tr h
    exact smLoop_robots_le net url il l fuel [url] [] none [] res tr h (by simp [robotsCount])
  · rfl

/-- Witness for C4 (amended) at the 404-plus-robots run. -/
theorem claim_C4_amended_witness :
    robotsCount [.xml "https://ex.com/sitemap.xml", .robots "https://ex.com/robots.txt",
      .xml "https://ex.com/b/alt.xml"] ≤ 1 :=
  claim_C4_amended.1 netAlt "https://ex.com/sitemap.xml" 5 0 3
    (.ok ⟨"https://ex.com/b/alt.xml", ["https://ex.com/b/leaf.html"]⟩)
    [.xml "https://ex.com/sitemap.xml", .robots "https://ex.com/robots.txt",
     .xml "https://ex.com/b/alt.xml"] rfl

end Scrape

namespace Scrape

/-! ## Claim C5 — at-most-once fetching and cycle termination -/

/-- C5 counterexample: a sitemap index pointing back to itself fetches
its own URL twice — once from the queue and once as a child during index
expansion (child fetches bypass the visited set). -/
theorem claim_C5_counterexample :
    fetchSitemapUrls netSelf "https://e.com/s.xml" 5 0 3 =
      some (.ok ⟨"https://e.com/s.xml", []⟩,
        [.xml "https://e.com/s.xml", .child "https://e.com/s.xml"]) ∧
    fetchedUrls [.xml "https://e.com/s.xml", .child "https://e.com/s.xml"] =
      ["https://e.com/s.xml", "https://e.com/s.xml"] ∧
    (fetchedUrls [.xml "https://e.com/s.xml", .child "https://e.com/s.xml"]).count
      "https://e.com/s.xml" = 2 ∧
    ¬ (fetchedUrls [.xml "https://e.com/s.xml", .child "https://e.com/s.xml"]).Nodup :=
  ⟨rfl, rfl, by decide, by decide⟩

theorem queueFetchUrls_xml_cons (u : String) (t : List FetchEv) :
    queueFetchUrls (.xml u :: t) = u :: queueFetchUrls t := rfl

/-- Visited-set invariant of the work-queue loop: queue-level fetch URLs
in the trace are pairwise distinct, as long as the incoming trace is
distinct and already covered by the visited list. -/
theorem smLoop_queue_nodup (net : Net) (o : String) (il l : Nat) :
    ∀ fuel q tried fe tr res tr',
      smLoop net o il l fuel q tried fe tr = some (res, tr') →
      (queueFetchUrls tr).Nodup →
      (∀ u ∈ queueFetchUrls tr, u ∈ tried) →
      (queueFetchUrls tr').Nodup := by
  intro fuel
  induction fuel with
  | zero => intro q tried fe tr res tr' h _ _; simp [smLoop] at h
  | succ fuel ih =>
    intro q tried fe tr res tr' h hnd hcov
    cases q with
    | nil =>
      rw [smLoop] at h
      simp only [Option.some.injEq, Prod.mk.injEq] at h
      obtain ⟨-, h2⟩ := h
      subst h2
      exact hnd
    | cons cur rest =>
      have hcurfresh : ∀ tried' : List String, cur ∉ tried' →
          (∀ u ∈ queueFetchUrls tr, u ∈ tried') →
          (queueFetchUrls (tr ++ [FetchEv.xml cur])).Nodup := by
        intro tried' hmem hcov'
        rw [queueFetchUrls_append]
        refine List.Nodup.append hnd (by simp [queueFetchUrls]) ?_
        intro u hu hu'
        have : u = cur := by simpa [queueFetchUrls] using hu'
        subst this
        exact hmem (hcov' u hu)
      rw [smLoop] at h
      split at h
      · exact ih rest tried fe tr res tr' h hnd hcov
      · rename_i hmem
        split at h
        · rename_i doc hdoc
          split at h
          · simp only [Option.some.injEq, Prod.mk.injEq] at h
            obtain ⟨-, h2⟩ := h
            subst h2
            have hx : queueFetchUrls (tr ++ FetchEv.xml cur :: (expandChildren net cur l
                ((doc.locs.take il).map (fun x => urlResolve x cur)) []).2) =
                queueFetchUrls (tr ++ [FetchEv.xml cur]) := by
              rw [queueFetchUrls_append, queueFetchUrls_append, queueFetchUrls_xml_cons,
                queueFetchUrls_xml_cons, expandChildren_queueFetchUrls]
              rfl
            rw [hx]
            exact hcurfresh tried hmem hcov
          · simp only [Option.some.injEq, Prod.mk.injEq] at h
            obtain ⟨-, h2⟩ := h
            subst h2
            exact hcurfresh tried hmem hcov
        · rename_i e he
          split at h
          · refine ih _ _ _ _ res tr' h ?_ ?_
            · have hx : queueFetchUrls (tr ++ FetchEv.xml cur ::
                  (discoverSitemapsFromRobots net o).2) =
                  queueFetchUrls (tr ++ [FetchEv.xml cur]) := by
                rw [discover_trace, queueFetchUrls_append, queueFetchUrls_append]
                simp [queueFetchUrls]
              rw [hx]
              exact hcurfresh tried hmem hcov
            · intro u hu
              have hx : queueFetchUrls (tr ++ FetchEv.xml cur ::
                  (discoverSitemapsFromRobots net o).2) =
                  queueFetchUrls tr ++ [cur] := by
                rw [discover_trace, queueFetchUrls_append]
                simp [queueFetchUrls]
              rw [hx] at hu
              rcases List.mem_append.mp hu with hu | hu
              · exact List.mem_cons_of_mem cur (hcov u hu)
              · simp only [List.mem_singleton] at hu
                subst hu
                exact List.mem_cons_self u tried
          · refine ih _ _ _ _ res tr' h ?_ ?_
            · rw [queueFetchUrls_append]
              refine List.Nodup.append hnd (by simp [queueFetchUrls]) ?_
              intro u hu hu'
              have : u = cur := by simpa [queueFetchUrls] using hu'
              subst this
              exact hmem (hcov u hu)
            · intro u hu
              rw [queueFetchUrls_append] at hu
              rcases List.mem_append.mp hu with hu | hu
              · exact List.mem_cons_of_mem cur (hcov u hu)
              · have : u = cur := by simpa [queueFetchUrls] using hu
                subst this
                exact List.mem_cons_self u tried

/-- C5 (amended): each *queued* URL is fetched at most once (the visited
set guards the queue), but child-sitemap fetches during index expansion
bypass the visited set and can refetch a URL — a self-referential index
fetches itself twice (see the counterexample) yet still terminates,
returning the urlset results already collected, because child indices
are never expanded. -/
theorem claim_C5_amended :
    (∀ (net : Net) (url : String) (il l fuel : Nat) (res : Except String SmResult)
        (tr : List FetchEv),
      fetchSitemapUrls net url il l fuel = some (res, tr) →
      (queueFetchUrls tr).Nodup) ∧
    (∀ f : Nat, fetchSitemapUrls netSelf "https://e.com/s.xml" 5 0 (f + 1) =
      some (.ok ⟨"https://e.com/s.xml", []⟩,
        [.xml "https://e.com/s.xml", .child "https://e.com/s.xml"])) := by
  constructor
  · intro net url il l fuel res tr h
    exact smLoop_queue_nodup net url il l fuel [url] [] none [] res tr h
      (by simp [queueFetchUrls]) (by simp [queueFetchUrls])
  · intro f
    rfl

/-- Witness for C5 (amended) at the self-referential-index run. -/
theorem claim_C5_amended_witness :
    (queueFetchUrls [.xml "https://e.com/s.xml", .child "https://e.com/s.xml"]).Nodup :=
  claim_C5_amended.1 netSelf "https://e.com/s.xml" 5 0 3
    (.ok ⟨"https://e.com/s.xml", []⟩)
    [.xml "https://e.com/s.xml", .child "https://e.com/s.xml"] rfl

end Scrape

namespace Scrape

/-! ## Claim C10 — diffSets -/

theorem dedupAux_mem :
    ∀ (l seen : List String) (x : String),
      x ∈ dedupAux seen l ↔ x ∈ l ∧ x ∉ seen := by
  intro l
  induction l with
  | nil => intro seen x; simp [dedupAux]
  | cons a l ih =>
    intro seen x
    rw [dedupAux]
    by_cases ha : a ∈ seen
    · rw [if_pos ha, ih seen x]
      constructor
      · rintro ⟨hx, hn⟩
        exact ⟨List.mem_cons_of_mem a hx, hn⟩
      · rintro ⟨hx, hn⟩
        rcases List.mem_cons.mp hx with rfl | hx
        · exact absurd ha hn
        · exact ⟨hx, hn⟩
    · rw [if_neg ha]
      constructor
      · intro hx
        rcases List.mem_cons.mp hx with rfl | hx
        · exact ⟨List.mem_cons_self x l, ha⟩
        · obtain ⟨h1, h2⟩ := (ih (a :: seen) x).mp hx
          exact ⟨List.mem_cons_of_mem a h1,
            fun hs => h2 (List.mem_cons_of_mem a hs)⟩
      · rintro ⟨hx, hn⟩
        by_cases hxa : x = a
        · subst hxa
          exact List.mem_cons_self x _
        · rcases List.mem_cons.mp hx with h | h
          · exact absurd h hxa
          · refine List.mem_cons_of_mem a ((ih (a :: seen) x).mpr ⟨h, ?_⟩)
            intro hs
            rcases List.mem_cons.mp hs with h' | h'
            · exact hxa h'
            · exact hn h'

theorem dedupFirst_mem (l : List String) (x : String) :
    x ∈ dedupFirst l ↔ x ∈ l := by
  unfold dedupFirst
  rw [dedupAux_mem]
  simp

theorem dedupAux_nodup : ∀ (l seen : List String), (dedupAux seen l).Nodup := by
  intro l
  induction l with
  | nil => intro seen; simp [dedupAux]
  | cons a l ih =>
    intro seen
    rw [dedupAux]
    split
    · exact ih seen
    · refine List.nodup_cons.mpr ⟨?_, ih (a :: seen)⟩
      intro hmem
      exact ((dedupAux_mem l (a :: seen) a).mp hmem).2 (List.mem_cons_self a seen)

theorem dedupFirst_nodup (l : List String) : (dedupFirst l).Nodup :=
  dedupAux_nodup l []

/-- C10: `diffSets` returns `added` — the distinct URLs of `next` absent
from `prev`, lexicographically sorted and duplicate-free — and `removed`
symmetrically; the two are disjoint. -/
theorem claim_C10 (prev next : List String) :
    (∀ x, x ∈ (diffSets prev next).1 ↔ x ∈ next ∧ x ∉ prev) ∧
    (diffSets prev next).1.Pairwise strLe ∧
    (diffSets prev next).1.Nodup ∧
    (∀ x, x ∈ (diffSets prev next).2 ↔ x ∈ prev ∧ x ∉ next) ∧
    (diffSets prev next).2.Pairwise strLe ∧
    (diffSets prev next).2.Nodup ∧
    (∀ x, ¬(x ∈ (diffSets prev next).1 ∧ x ∈ (diffSets prev next).2)) := by
  have hmem1 : ∀ x, x ∈ (diffSets prev next).1 ↔ x ∈ next ∧ x ∉ prev := by
    intro x
    show x ∈ List.insertionSort strLe ((dedupFirst next).filter
      (fun y => !(prev.contains y))) ↔ _
    rw [(List.perm_insertionSort strLe _).mem_iff, List.mem_filter, dedupFirst_mem]
    simp
  have hmem2 : ∀ x, x ∈ (diffSets prev next).2 ↔ x ∈ prev ∧ x ∉ next := by
    intro x
    show x ∈ List.insertionSort strLe ((dedupFirst prev).filter
      (fun y => !(next.contains y))) ↔ _
    rw [(List.perm_insertionSort strLe _).mem_iff, List.mem_filter, dedupFirst_mem]
    simp
  refine ⟨hmem1, ?_, ?_, hmem2, ?_, ?_, ?_⟩
  · exact List.sorted_insertionSort strLe _
  · exact ((List.perm_insertionSort strLe _).symm).nodup
      ((dedupFirst_nodup next).filter _)
  · exact List.sorted_insertionSort strLe _
  · exact ((List.perm_insertionSort strLe _).symm).nodup
      ((dedupFirst_nodup prev).filter _)
  · intro x ⟨h1, h2⟩
    exact ((hmem1 x).mp h1).2 ((hmem2 x).mp h2).1

end Scrape

namespace Scrape

/-! ## Claim C7 — idempotence of normalizeValue -/

theorem normalizeList_eq_map : ∀ xs, normalizeList xs = xs.map normalizeValue := by
  intro xs
  induction xs with
  | nil => rfl
  | cons x xs ih => rw [normalizeList, ih, List.map_cons]

theorem normalizeFields_eq_map :
    ∀ fs, normalizeFields fs = fs.map (fun kv => (kv.1, normalizeValue kv.2)) := by
  intro fs
  induction fs with
  | nil => rfl
  | cons kv fs ih =>
    obtain ⟨k, v⟩ := kv
    rw [normalizeFields, ih, List.map_cons]

theorem normalizeValue_jstr (s : String) :
    normalizeValue (.jstr s) =
      (if ((collapseWs s.data).filter
            (fun c => c.isDigit || c == '.' || c == ',' || c == '-')).any Char.isDigit then
        match parseNum (((collapseWs s.data).filter
            (fun c => c.isDigit || c == '.' || c == ',' || c == '-')).filter
            (fun c => c != ',')) with
        | some n => JVal.jnum n
        | none => .jstr ⟨collapseWs s.data⟩
      else .jstr ⟨collapseWs s.data⟩) := rfl

theorem normalizeValue_jstr_idem (s : String) :
    normalizeValue (normalizeValue (.jstr s)) = normalizeValue (.jstr s) := by
  by_cases hd : ((collapseWs s.data).filter
      (fun c => c.isDigit || c == '.' || c == ',' || c == '-')).any Char.isDigit = true
  · cases hp : parseNum (((collapseWs s.data).filter
        (fun c => c.isDigit || c == '.' || c == ',' || c == '-')).filter
        (fun c => c != ',')) with
    | some n =>
      have h1 : normalizeValue (.jstr s) = .jnum n := by
        rw [normalizeValue_jstr, if_pos hd, hp]
      rw [h1]
      rfl
    | none =>
      have h1 : normalizeValue (.jstr s) = .jstr ⟨collapseWs s.data⟩ := by
        rw [normalizeValue_jstr, if_pos hd, hp]
      rw [h1, normalizeValue_jstr]
      have hdata : (⟨collapseWs s.data⟩ : String).data = collapseWs s.data := rfl
      rw [hdata, collapseWs_idem, if_pos hd, hp]
  · have h1 : normalizeValue (.jstr s) = .jstr ⟨collapseWs s.data⟩ := by
      rw [normalizeValue_jstr, if_neg hd]
    rw [h1, normalizeValue_jstr]
    have hdata : (⟨collapseWs s.data⟩ : String).data = collapseWs s.data := rfl
    rw [hdata, collapseWs_idem, if_neg hd]

/-- C7: `normalizeValue` is idempotent on every nested value. -/
theorem claim_C7 (v : JVal) :
    normalizeValue (normalizeValue v) = normalizeValue v := by
  suffices H : ∀ (n : Nat) (v : JVal), sizeOf v ≤ n →
      normalizeValue (normalizeValue v) = normalizeValue v from H (sizeOf v) v le_rfl
  intro n
  induction n using Nat.strong_induction_on with
  | _ n ih =>
    intro v hv
    cases v with
    | jnull => rfl
    | jbool b => rfl
    | jnum q => rfl
    | jstr s => exact normalizeValue_jstr_idem s
    | jarr xs =>
      have e1 : normalizeValue (JVal.jarr xs) =
          .jarr (List.insertionSort jsLe (normalizeList xs)) := rfl
      have e2 : normalizeValue (JVal.jarr (List.insertionSort jsLe (normalizeList xs))) =
          .jarr (List.insertionSort jsLe
            (normalizeList (List.insertionSort jsLe (normalizeList xs)))) := rfl
      rw [e1, e2]
      have hfix : ∀ y ∈ List.insertionSort jsLe (normalizeList xs),
          normalizeValue y = y := by
        intro y hy
        have hy' : y ∈ normalizeList xs :=
          (List.perm_insertionSort jsLe (normalizeList xs)).mem_iff.mp hy
        rw [normalizeList_eq_map] at hy'
        obtain ⟨x, hx, rfl⟩ := List.mem_map.mp hy'
        have hsx : sizeOf x < n := by
          have h1 : sizeOf x < sizeOf xs := List.sizeOf_lt_of_mem hx
          have h3 : sizeOf (JVal.jarr xs) = 1 + sizeOf xs := by simp
          omega
        exact ih (sizeOf x) hsx x le_rfl
      have hlist : normalizeList (List.insertionSort jsLe (normalizeList xs)) =
          List.insertionSort jsLe (normalizeList xs) := by
        rw [normalizeList_eq_map]
        calc (List.insertionSort jsLe (normalizeList xs)).map normalizeValue
            = (List.insertionSort jsLe (normalizeList xs)).map id :=
              List.map_congr_left (fun a ha => hfix a ha)
          _ = List.insertionSort jsLe (normalizeList xs) := List.map_id _
      rw [hlist, (List.sorted_insertionSort jsLe (normalizeList xs)).insertionSort_eq]
    | jobj fs =>
      have e1 : normalizeValue (JVal.jobj fs) =
          .jobj (List.insertionSort fieldLe (normalizeFields fs)) := rfl
      have e2 : normalizeValue (JVal.jobj (List.insertionSort fieldLe (normalizeFields fs))) =
          .jobj (List.insertionSort fieldLe
            (normalizeFields (List.insertionSort fieldLe (normalizeFields fs)))) := rfl
      rw [e1, e2]
      have hfix : ∀ kv ∈ List.insertionSort fieldLe (normalizeFields fs),
          (kv.1, normalizeValue kv.2) = kv := by
        intro kv hkv
        have hkv' : kv ∈ normalizeFields fs :=
          (List.perm_insertionSort fieldLe (normalizeFields fs)).mem_iff.mp hkv
        rw [normalizeFields_eq_map] at hkv'
        obtain ⟨x, hx, rfl⟩ := List.mem_map.mp hkv'
        have hsx : sizeOf x.2 < n := by
          have h1 : sizeOf x < sizeOf fs := List.sizeOf_lt_of_mem hx
          have h2 : sizeOf (JVal.jobj fs) = 1 + sizeOf fs := by simp
          obtain ⟨a, b⟩ := x
          have h3 : sizeOf (a, b) = 1 + sizeOf a + sizeOf b := by simp
          simp only [h3] at h1
          simp only []
          omega
        have := ih (sizeOf x.2) hsx x.2 le_rfl
        simp only [this]
      have hflds : normalizeFields (List.insertionSort fieldLe (normalizeFields fs)) =
          List.insertionSort fieldLe (normalizeFields fs) := by
        rw [normalizeFields_eq_map]
        calc (List.insertionSort fieldLe (normalizeFields fs)).map
              (fun kv => (kv.1, normalizeValue kv.2))
            = (List.insertionSort fieldLe (normalizeFields fs)).map id :=
              List.map_congr_left (fun a ha => hfix a ha)
          _ = List.insertionSort fieldLe (normalizeFields fs) := List.map_id _
      rw [hflds, (List.sorted_insertionSort fieldLe (normalizeFields fs)).insertionSort_eq]

end Scrape
